import Mathlib

/-!
# rtl_webfft: control channel, acquisition check, spectral transform, session loop

A shallow embedding of `server.c`.  Machine integers are `Nat`/`Int` with
explicit wrap-around, the 32-byte command buffer is a list of byte values,
and stores outside the buffer are reported as a `Fault` instead of being
given a meaning.
-/

namespace RtlWebfft

/-! ## libc `atoi` (external; ISO C grammar, glibc result on LP64) -/

/-- The `isspace` class of the C locale: space and `\t \n \v \f \r`. -/
def isspace (c : Nat) : Bool := c == 32 || (9 ≤ c && c ≤ 13)

/-- The `isdigit` class: `'0'..'9'`. -/
def isdigit (c : Nat) : Bool := 48 ≤ c && c ≤ 57

/-- Leading white space is skipped by `strtol`. -/
def skipSpace : List Nat → List Nat
  | [] => []
  | c :: cs => if isspace c then skipSpace cs else c :: cs

/-- Accumulate the longest run of decimal digits; the first other byte
(the NUL terminator included) stops the scan. -/
def atoiDigits : Nat → List Nat → Nat
  | acc, [] => acc
  | acc, c :: cs => if isdigit c then atoiDigits (10 * acc + (c - 48)) cs else acc

/-- Saturation of `strtol` to the range of a 64-bit `long`. -/
def clampLong (x : Int) : Int := max (-(2 ^ 63)) (min x (2 ^ 63 - 1))

/-- Conversion of an integer to a 32-bit two's complement `int`. -/
def wrapInt32 (x : Int) : Int := (x + 2 ^ 31) % 2 ^ 32 - 2 ^ 31

/-- The conversion `(uint32_t)x` of an `int`. -/
def toUInt32 (x : Int) : Nat := (x % 2 ^ 32).toNat

/-- The function `strtol(s, NULL, 10)`: white space, optional sign, digits. -/
def strtol (s : List Nat) : Int :=
  match skipSpace s with
  | [] => 0
  | c :: cs =>
    if c = 45 then clampLong (-(atoiDigits 0 cs : Int))
    else if c = 43 then clampLong (atoiDigits 0 cs : Int)
    else clampLong (atoiDigits 0 (c :: cs) : Int)

/-- The function `atoi(s)`, which glibc defines as `(int) strtol(s, NULL, 10)`. -/
def atoi (s : List Nat) : Int := wrapInt32 (strtol s)

/-! ## Control channel (`main`, lines 229-231 and 260-275) -/

/-- Capacity of `char cmdbuf[32]`. -/
def CMDBUF_SIZE : Nat := 32

/-- A store that leaves the command buffer. -/
inductive Fault where
  | outOfBounds (idx : Nat)
  deriving DecidableEq, Repr

deriving instance DecidableEq for Except

/-- Calls made to the capture device and the connection. -/
inductive Event where
  | retune (freq : Nat)
  | send (frame : List Nat)
  | closeConn
  deriving DecidableEq, Repr

/-- The variables the drain loop reads and writes: `cmdbuf`, `cmdbuf_pos`
(an `unsigned short`) and the global `frequency` (a `uint32_t`). -/
structure CmdState where
  cmdbuf : List Nat
  cmdbuf_pos : Nat
  frequency : Nat
  deriving DecidableEq, Repr

/-- The statement `cmdbuf[cmdbuf_pos++] = v`. -/
def store (st : CmdState) (v : Nat) : Except Fault CmdState :=
  if st.cmdbuf_pos < CMDBUF_SIZE then
    .ok { st with cmdbuf := st.cmdbuf.set st.cmdbuf_pos v,
                  cmdbuf_pos := (st.cmdbuf_pos + 1) % 65536 }
  else .error (.outOfBounds st.cmdbuf_pos)

/-- Body of the drain loop for one received byte `b` (lines 262-274). -/
def step (st : CmdState) (b : Nat) : Except Fault (CmdState × List Event) :=
  if b = 0x00 then
    .ok ({ st with cmdbuf_pos := 0 }, [])
  else if b = 0xFF ∧ st.cmdbuf_pos > 0 then
    match store st 0x00 with
    | .error f => .error f
    | .ok st1 =>
      let newfreq := atoi st1.cmdbuf
      let frequency := toUInt32 newfreq
      .ok ({ st1 with frequency := frequency }, [.retune frequency])
  else
    match store st b with
    | .error f => .error f
    | .ok st1 => .ok (st1, [])

/-- The loop `while(read(connfd, recvbuf, 1) > 0)` over the bytes it reads. -/
def drain : CmdState → List Nat → Except Fault (CmdState × List Event)
  | st, [] => .ok (st, [])
  | st, b :: bs =>
    match step st b with
    | .error f => .error f
    | .ok (st1, e1) =>
      match drain st1 bs with
      | .error f => .error f
      | .ok (st2, e2) => .ok (st2, e1 ++ e2)

/-! ## Acquisition check (`read_rtlsdr`, lines 150-168) -/

/-- The global `buff_len`. -/
def buff_len : Nat := 2048

/-- The function `read_rtlsdr`, as a function of what `rtlsdr_read_sync`
reports: its return code `r` and the byte count `n_read`.  The result is the
flag `error`. -/
def read_rtlsdr (r n_read : Int) : Bool :=
  let error := false
  let error := if r < 0 then true else error
  let error := if toUInt32 n_read < buff_len then true else error
  error

/-! ## Spectral transform (`run_fft`, lines 170-204)

C `float` arithmetic is taken as exact arithmetic on rationals.  The FFT
kernel `kiss_fft` and libm's `log10` are not part of the sources and are
parameters of the transform. -/

/-- A complex sample, `kiss_fft_cpx`. -/
structure kiss_fft_cpx where
  r : ℚ
  i : ℚ
  deriving DecidableEq

instance : Zero kiss_fft_cpx := ⟨⟨0, 0⟩⟩

/-- The constant `DYNAMIC_RANGE`, 90 dB. -/
def DYNAMIC_RANGE : ℚ := 90

/-- The literal `1.0e-20f` added to the power before the logarithm. -/
def EPSILON : ℚ := 1 / 10 ^ 20

/-- First loop of `run_fft` (lines 176-180): byte pairs to samples in [0,1]. -/
def load_samples (fft_size : Nat) (buffer : List Nat) : List kiss_fft_cpx :=
  (List.range fft_size).map fun i =>
    ⟨(buffer.getD (2 * i) 0 : ℚ) / 255, (buffer.getD (2 * i + 1) 0 : ℚ) / 255⟩

/-- The shifted, normalised point `pt` of output bin `i` (lines 185-194). -/
def shifted_bin (fft_size : Nat) (fft_out : List kiss_fft_cpx) (i : Nat) : kiss_fft_cpx :=
  if i < fft_size / 2 then
    ⟨(fft_out.getD (fft_size / 2 + i) 0).r / fft_size,
     (fft_out.getD (fft_size / 2 + i) 0).i / fft_size⟩
  else
    ⟨(fft_out.getD (i - fft_size / 2) 0).r / fft_size,
     (fft_out.getD (i - fft_size / 2) 0).i / fft_size⟩

/-- The power `pwr = pt.r * pt.r + pt.i * pt.i` (line 195). -/
def bin_power (pt : kiss_fft_cpx) : ℚ := pt.r * pt.r + pt.i * pt.i

/-- The value `log_pwr_fft[i]` after lines 197-201, before it is narrowed. -/
def log_pwr_fft (log10 : ℚ → ℚ) (pwr : ℚ) : ℚ :=
  let v := 10 * log10 (pwr + EPSILON)
  let v := v + DYNAMIC_RANGE
  let v := if v < 0 then 0 else v
  let v := v / DYNAMIC_RANGE
  v * 255

/-- The narrowing `(char)x` of line 202, as the byte that goes on the wire:
the value is truncated towards zero and the low eight bits are kept (what
x86-64 code does; ISO C leaves the result open outside the range of `char`). -/
def to_char (x : ℚ) : Nat :=
  ((if 0 ≤ x then ⌊x⌋ else ⌈x⌉) % 256).toNat

/-- The function `run_fft`: the spectrum frame `log_pwr_fft_byte` computed from
the sample block `buffer`. -/
def run_fft (kiss_fft : List kiss_fft_cpx → List kiss_fft_cpx) (log10 : ℚ → ℚ)
    (fft_size : Nat) (buffer : List Nat) : List Nat :=
  let fft_in := load_samples fft_size buffer
  let fft_out := kiss_fft fft_in
  (List.range fft_size).map fun i =>
    to_char (log_pwr_fft log10 (bin_power (shifted_bin fft_size fft_out i)))

/-- Modelled from the spec: the external forward FFT (`kiss_fft`, whose source
is absent) at size 4, `X[k] = Σ x[n]·(-i)^(n·k)`, unnormalised; its twiddle
factors are rational, so the transform is exact. -/
def dft4 (x : List kiss_fft_cpx) : List kiss_fft_cpx :=
  let a := x.getD 0 0
  let b := x.getD 1 0
  let c := x.getD 2 0
  let d := x.getD 3 0
  [ ⟨a.r + b.r + c.r + d.r, a.i + b.i + c.i + d.i⟩,
    ⟨a.r + b.i - c.r - d.i, a.i - b.r - c.i + d.r⟩,
    ⟨a.r - b.r + c.r - d.r, a.i - b.i + c.i - d.i⟩,
    ⟨a.r - b.i - c.r + d.i, a.i + b.r - c.i - d.r⟩ ]

/-- A two-valued stand-in for libm's `log10` in the concrete checks: exact at
`1e-20`, and within `1e-5` of `log10 2` at `2 + 1e-20`. -/
def log10_sample (x : ℚ) : ℚ := if x < 1 then -20 else 30103 / 100000

/-! ## Session loop (`main`, lines 251-294, and `sighandler_pipe`) -/

/-- The global `fft_size`. -/
def fft_size : Nat := 1024

/-- Where control stands in `main`: blocked in `accept` (line 253), at the
test of `while(connection_valid)` (line 256), or after the process has ended. -/
inductive Pc where
  | accept
  | loop
  | exited (status : Nat)
  deriving DecidableEq, Repr

/-- What the `write` of line 289 does.  Its return value is discarded by
`main`; a broken pipe raises `SIGPIPE`, which runs `sighandler_pipe` before
`write` returns; other failures (`ECONNRESET`, `EINTR`, ...) raise no signal. -/
inductive WriteResult where
  | written
  | failed_sigpipe
  | failed_nosignal
  deriving DecidableEq, Repr

/-- What the outside world supplies to one pass of the inner loop: the bytes
the drain loop reads, the outcome of `rtlsdr_read_sync` with the sample block
it left in `buffer`, and the outcome of the frame write. -/
structure Env where
  inbound : List Nat
  r : Int
  n_read : Int
  block : List Nat
  wr : WriteResult
  deriving DecidableEq, Repr

/-- The part of the process state `main` works on. -/
structure Server where
  pc : Pc
  cmd : CmdState
  connection_valid : Bool
  conn_open : Bool
  deriving DecidableEq, Repr

/-- State when `main` first reaches `accept`: `cmdbuf_pos = 0` (line 231),
`frequency = 99400000` (line 50), `cmdbuf` holding whatever the stack held. -/
def initial (cmdbuf : List Nat) : Server :=
  ⟨.accept, ⟨cmdbuf, 0, 99400000⟩, false, false⟩

/-- Lines 252-255: a client connects; `connection_valid = true`. -/
def accept_connection (s : Server) : Server :=
  { s with pc := .loop, connection_valid := true, conn_open := true }

/-- The handler `sighandler_pipe` (lines 95-99). -/
def sighandler_pipe (s : Server) : Server × List Event :=
  ({ s with connection_valid := false, conn_open := false }, [.closeConn])

/-- Body of the inner loop (lines 258-291). -/
def loop_body (kiss_fft : List kiss_fft_cpx → List kiss_fft_cpx) (log10 : ℚ → ℚ)
    (s : Server) (env : Env) : Except Fault (Server × List Event) :=
  match drain s.cmd env.inbound with
  | .error f => .error f
  | .ok (cmd1, ev1) =>
    let s1 := { s with cmd := cmd1 }
    if read_rtlsdr env.r env.n_read then
      -- destroy(); return 1;
      .ok ({ s1 with pc := .exited 1, conn_open := false }, ev1 ++ [.closeConn])
    else
      let frame := run_fft kiss_fft log10 fft_size env.block
      match env.wr with
      | .written => .ok (s1, ev1 ++ [.send frame])
      | .failed_sigpipe => .ok ((sighandler_pipe s1).1, ev1 ++ (sighandler_pipe s1).2)
      | .failed_nosignal => .ok (s1, ev1)

/-- One move of `main`: accept a client, or test `connection_valid` and either
run the loop body or close the connection (line 293) and go back to `accept`. -/
def main_step (kiss_fft : List kiss_fft_cpx → List kiss_fft_cpx) (log10 : ℚ → ℚ)
    (s : Server) (env : Env) : Except Fault (Server × List Event) :=
  match s.pc with
  | .accept => .ok (accept_connection s, [])
  | .loop =>
    if s.connection_valid then loop_body kiss_fft log10 s env
    else .ok ({ s with pc := .accept, conn_open := false }, [.closeConn])
  | .exited _ => .ok (s, [])

/-- Several moves of `main`, one per element of `envs`. -/
def main_run (kiss_fft : List kiss_fft_cpx → List kiss_fft_cpx) (log10 : ℚ → ℚ) :
    Server → List Env → Except Fault (Server × List Event)
  | s, [] => .ok (s, [])
  | s, env :: envs =>
    match main_step kiss_fft log10 s env with
    | .error f => .error f
    | .ok (s1, e1) =>
      match main_run kiss_fft log10 s1 envs with
      | .error f => .error f
      | .ok (s2, e2) => .ok (s2, e1 ++ e2)

/-- The frequencies of the retune calls in a trace. -/
def retunes (evs : List Event) : List Nat :=
  evs.filterMap fun e => match e with
    | .retune f => some f
    | _ => none

/-- An environment with nothing to read, a full sample block and a frame
write that succeeds. -/
def quiet : Env := ⟨[], 0, 2048, List.replicate 2048 0, .written⟩

/-- The decimal value of a digit string, most significant digit first. -/
def decimalValue (s : List Nat) : Nat :=
  s.foldl (fun acc c => 10 * acc + (c - 48)) 0

/-- The 32 zero bytes of a cleared buffer. -/
def zeroBuf : List Nat := List.replicate 32 0

/-! ## Lemmas on `atoi` -/

theorem atoiDigits_digits (s : List Nat) (hd : ∀ c ∈ s, isdigit c = true) (t : List Nat) :
    ∀ acc : Nat, atoiDigits acc (s ++ 0 :: t) =
      s.foldl (fun a c => 10 * a + (c - 48)) acc := by
  induction s with
  | nil => intro acc; simp [atoiDigits, isdigit]
  | cons c cs ih =>
    intro acc
    have hc : isdigit c = true := hd c (by simp)
    have hcs : ∀ x ∈ cs, isdigit x = true := fun x hx => hd x (by simp [hx])
    simp only [List.cons_append, atoiDigits, hc, if_true, List.foldl_cons]
    exact ih hcs _

theorem skipSpace_digit (c : Nat) (cs : List Nat) (hc : isdigit c = true) :
    skipSpace (c :: cs) = c :: cs := by
  have h : isspace c = false := by
    simp only [isdigit, Bool.and_eq_true, decide_eq_true_eq] at hc
    simp only [isspace, Bool.or_eq_false_iff, beq_eq_false_iff_ne, Bool.and_eq_false_iff,
      decide_eq_false_iff_not]
    omega
  simp [skipSpace, h]

theorem atoi_digits (s : List Nat) (hne : s ≠ []) (hd : ∀ c ∈ s, isdigit c = true)
    (hv : decimalValue s < 2 ^ 31) (t : List Nat) :
    atoi (s ++ 0 :: t) = (decimalValue s : Int) := by
  obtain ⟨c, cs, rfl⟩ := List.exists_cons_of_ne_nil hne
  have hc : isdigit c = true := hd c (by simp)
  have hc2 : c ≠ 45 ∧ c ≠ 43 := by
    simp only [isdigit, Bool.and_eq_true, decide_eq_true_eq] at hc
    omega
  have hval : atoiDigits 0 (c :: cs ++ 0 :: t) = decimalValue (c :: cs) :=
    atoiDigits_digits (c :: cs) hd t 0
  have hsk : skipSpace (c :: (cs ++ 0 :: t)) = c :: (cs ++ 0 :: t) := skipSpace_digit c _ hc
  have hv2 : ((decimalValue (c :: cs) : Nat) : Int) < 2 ^ 31 := by exact_mod_cast hv
  have hv0 : (0 : Int) ≤ ((decimalValue (c :: cs) : Nat) : Int) := Int.ofNat_nonneg _
  simp only [atoi, strtol, List.cons_append, hsk, hc2.1, hc2.2, if_false]
  rw [← List.cons_append, hval]
  simp only [clampLong, wrapInt32]
  rw [min_eq_left (by omega), max_eq_right (by omega)]
  omega

theorem atoiDigits_stop (pre : List Nat) (t1 t2 : List Nat) :
    ∀ acc : Nat, atoiDigits acc (pre ++ 0 :: t1) = atoiDigits acc (pre ++ 0 :: t2) := by
  induction pre with
  | nil => intro acc; simp [atoiDigits, isdigit]
  | cons c cs ih =>
    intro acc
    simp only [List.cons_append, atoiDigits]
    split
    · exact ih _
    · rfl

theorem skipSpace_stop (pre : List Nat) :
    ∃ pre1 : List Nat, ∀ t : List Nat, skipSpace (pre ++ 0 :: t) = pre1 ++ 0 :: t := by
  induction pre with
  | nil => exact ⟨[], fun t => by simp [skipSpace, isspace]⟩
  | cons c cs ih =>
    obtain ⟨q, hq⟩ := ih
    by_cases hc : isspace c = true
    · exact ⟨q, fun t => by simp [skipSpace, hc, hq]⟩
    · exact ⟨c :: cs, fun t => by simp [skipSpace, hc]⟩

/-- The scan of `atoi` ends at the first NUL: what lies behind it is not read. -/
theorem atoi_stop (pre : List Nat) (t1 t2 : List Nat) :
    atoi (pre ++ 0 :: t1) = atoi (pre ++ 0 :: t2) := by
  obtain ⟨q, hq⟩ := skipSpace_stop pre
  simp only [atoi, strtol, hq]
  cases q with
  | nil => simp [atoiDigits, isdigit]
  | cons c cs =>
    simp only [List.cons_append]
    have h1 := atoiDigits_stop cs t1 t2 0
    have h2 := atoiDigits_stop (c :: cs) t1 t2 0
    simp only [List.cons_append] at h2
    rw [h1, h2]

/-! ## Lemmas on the drain loop -/

theorem store_ok (st : CmdState) (v : Nat) (h : st.cmdbuf_pos < 32) :
    store st v = .ok { st with cmdbuf := st.cmdbuf.set st.cmdbuf_pos v,
                               cmdbuf_pos := st.cmdbuf_pos + 1 } := by
  have h1 : (st.cmdbuf_pos + 1) % 65536 = st.cmdbuf_pos + 1 := by omega
  simp [store, CMDBUF_SIZE, h, h1]

theorem store_fault (st : CmdState) (v : Nat) (h : 32 ≤ st.cmdbuf_pos) :
    store st v = .error (.outOfBounds st.cmdbuf_pos) := by
  have h1 : ¬ st.cmdbuf_pos < 32 := by omega
  simp [store, CMDBUF_SIZE, h1]

theorem step_plain (st : CmdState) (b : Nat) (h0 : b ≠ 0) (hff : b ≠ 255) :
    step st b = (store st b).map (fun st1 => (st1, [])) := by
  simp only [step, h0, hff, if_false, false_and]
  cases store st b <;> rfl

/-- Bytes other than `0x00` and `0xFF` are stored one after the other. -/
theorem drain_plain (s : List Nat) (hs : ∀ c ∈ s, c ≠ 0 ∧ c ≠ 255) :
    ∀ (pre rest : List Nat) (f : Nat), pre.length + s.length ≤ 32 → s.length ≤ rest.length →
      drain ⟨pre ++ rest, pre.length, f⟩ s =
        .ok (⟨pre ++ s ++ rest.drop s.length, pre.length + s.length, f⟩, []) := by
  induction s with
  | nil => intro pre rest f _ _; simp [drain]
  | cons c cs ih =>
    intro pre rest f hlen hrest
    obtain ⟨r, rs, rfl⟩ : ∃ r rs, rest = r :: rs := by
      cases rest with
      | nil => simp at hrest
      | cons r rs => exact ⟨r, rs, rfl⟩
    have hc := hs c (by simp)
    have hcs : ∀ x ∈ cs, x ≠ 0 ∧ x ≠ 255 := fun x hx => hs x (by simp [hx])
    simp only [List.length_cons] at hlen hrest
    have hpos : pre.length < 32 := by omega
    have hstep : step ⟨pre ++ r :: rs, pre.length, f⟩ c =
        .ok (⟨(pre ++ [c]) ++ rs, (pre ++ [c]).length, f⟩, []) := by
      rw [step_plain _ _ hc.1 hc.2, store_ok _ _ hpos]
      simp [Except.map]
    have hrec := ih hcs (pre ++ [c]) rs f (by simp; omega) (by omega)
    simp only [drain, hstep, hrec]
    simp [Nat.add_assoc, Nat.add_comm 1]

/-- A drained prefix followed by one more byte. -/
theorem drain_snoc (a : CmdState) (l : List Nat) :
    ∀ (b : CmdState) (ev : List Event) (c : Nat) (d : CmdState) (ev2 : List Event),
      drain a l = .ok (b, ev) → step b c = .ok (d, ev2) →
      drain a (l ++ [c]) = .ok (d, ev ++ ev2) := by
  induction l generalizing a with
  | nil =>
    intro b ev c d ev2 h1 h2
    simp only [drain, Except.ok.injEq, Prod.mk.injEq] at h1
    obtain ⟨rfl, rfl⟩ := h1
    simp [drain, h2]
  | cons x xs ih =>
    intro b ev c d ev2 h1 h2
    simp only [drain, List.cons_append] at h1 ⊢
    cases hx : step a x with
    | error f => simp [hx] at h1
    | ok p =>
      obtain ⟨a1, e1⟩ := p
      simp only [hx] at h1 ⊢
      cases hxs : drain a1 xs with
      | error f => simp [hxs] at h1
      | ok q =>
        obtain ⟨a2, e2⟩ := q
        simp only [hxs, Except.ok.injEq, Prod.mk.injEq] at h1
        obtain ⟨rfl, rfl⟩ := h1
        simp only [List.append_eq, ih a1 a2 e2 c d ev2 hxs h2]
        simp

theorem step_events (a b : CmdState) (c : Nat) (ev : List Event)
    (h : step a c = .ok (b, ev)) : ∀ e ∈ ev, ∃ f, e = Event.retune f := by
  unfold step at h
  split at h
  · simp only [Except.ok.injEq, Prod.mk.injEq] at h
    obtain ⟨-, rfl⟩ := h
    simp
  · split at h
    · cases hs : store a 0 with
      | error f => simp [hs] at h
      | ok st1 =>
        simp only [hs, Except.ok.injEq, Prod.mk.injEq] at h
        obtain ⟨-, rfl⟩ := h
        simp
    · cases hs : store a c with
      | error f => simp [hs] at h
      | ok st1 =>
        simp only [hs, Except.ok.injEq, Prod.mk.injEq] at h
        obtain ⟨-, rfl⟩ := h
        simp

/-- The drain loop calls the device only to retune; it sends no frame. -/
theorem drain_events (l : List Nat) :
    ∀ (a b : CmdState) (ev : List Event), drain a l = .ok (b, ev) →
      ∀ e ∈ ev, ∃ f, e = Event.retune f := by
  induction l with
  | nil =>
    intro a b ev h
    simp only [drain, Except.ok.injEq, Prod.mk.injEq] at h
    obtain ⟨-, rfl⟩ := h
    simp
  | cons x xs ih =>
    intro a b ev h
    simp only [drain] at h
    cases hx : step a x with
    | error f => simp [hx] at h
    | ok p =>
      obtain ⟨a1, e1⟩ := p
      simp only [hx] at h
      cases hxs : drain a1 xs with
      | error f => simp [hxs] at h
      | ok q =>
        obtain ⟨a2, e2⟩ := q
        simp only [hxs, Except.ok.injEq, Prod.mk.injEq] at h
        obtain ⟨-, rfl⟩ := h
        intro e he
        rcases List.mem_append.mp he with h1 | h2
        · exact step_events a a1 x e1 hx e h1
        · exact ih a1 a2 e2 hxs e h2

/-- Digits received at position 0 and committed by `0xFF`. -/
theorem drain_digits_commit (st : CmdState) (s : List Nat)
    (hbuf : st.cmdbuf.length = 32) (hzero : st.cmdbuf_pos = 0) (hne : s ≠ [])
    (hd : ∀ c ∈ s, 48 ≤ c ∧ c ≤ 57) (hlen : s.length ≤ 31)
    (hv : decimalValue s < 2 ^ 31) :
    drain st (s ++ [255]) =
      .ok (⟨s ++ 0 :: st.cmdbuf.drop (s.length + 1), s.length + 1, decimalValue s⟩,
           [.retune (decimalValue s)]) := by
  obtain ⟨buf, p, f⟩ := st
  simp only at hbuf hzero
  subst hzero
  simp only
  have hdig : ∀ c ∈ s, isdigit c = true := by
    intro c hc
    have := hd c hc
    simp [isdigit, this.1, this.2]
  have hplain : ∀ c ∈ s, c ≠ 0 ∧ c ≠ 255 := by
    intro c hc
    have := hd c hc
    omega
  have hd1 := drain_plain s hplain [] buf f (by simp; omega) (by omega)
  simp only [List.nil_append, List.length_nil, Nat.zero_add] at hd1
  -- the buffer after the digits, split at the terminator's index
  obtain ⟨r, rs, hr⟩ : ∃ r rs, buf.drop s.length = r :: rs := by
    cases h : buf.drop s.length with
    | nil =>
      have := congrArg List.length h
      simp at this
      omega
    | cons r rs => exact ⟨r, rs, rfl⟩
  have hspos : 0 < s.length := List.length_pos.mpr hne
  have hset : (s ++ r :: rs).set s.length 0 = s ++ 0 :: rs := by
    simp
  have hatoi := atoi_digits s hne hdig hv rs
  have hfreq : ((decimalValue s : Int) % 2 ^ 32).toNat = decimalValue s := by
    have : (decimalValue s : Int) < 2 ^ 31 := by exact_mod_cast hv
    omega
  have hff : step ⟨s ++ r :: rs, s.length, f⟩ 255 =
      .ok (⟨s ++ 0 :: rs, s.length + 1, decimalValue s⟩, [.retune (decimalValue s)]) := by
    have hp : (⟨s ++ r :: rs, s.length, f⟩ : CmdState).cmdbuf_pos < 32 := by
      show s.length < 32
      omega
    simp only [step, store_ok _ _ hp]
    have hu : toUInt32 (decimalValue s : Int) = decimalValue s := by
      have : (decimalValue s : Int) < 2 ^ 31 := by exact_mod_cast hv
      simp only [toUInt32]
      omega
    simp [hspos, hatoi, hu]
  have hrs : buf.drop (s.length + 1) = rs := by
    have h1 : buf.drop (s.length + 1) = (buf.drop s.length).drop 1 := by
      rw [List.drop_drop, Nat.add_comm]
    rw [h1, hr]
    rfl
  rw [hrs]
  rw [hr] at hd1
  have hall := drain_snoc _ _ _ _ _ _ _ hd1 hff
  rw [hall]
  simp

/-- Plain bytes stored from position `pre.length` on, then committed by `0xFF`:
the terminator lands behind them and `atoi` reads the whole buffer from
index 0. -/
theorem drain_plain_commit (pre rest s : List Nat) (f : Nat)
    (hs : ∀ c ∈ s, c ≠ 0 ∧ c ≠ 255) (hlen : pre.length + rest.length = 32)
    (hroom : pre.length + s.length < 32) (hpos : 0 < pre.length + s.length) :
    drain ⟨pre ++ rest, pre.length, f⟩ (s ++ [255]) =
      .ok (⟨pre ++ s ++ 0 :: rest.drop (s.length + 1), pre.length + s.length + 1,
            toUInt32 (atoi (pre ++ s ++ 0 :: rest.drop (s.length + 1)))⟩,
           [.retune (toUInt32 (atoi (pre ++ s ++ 0 :: rest.drop (s.length + 1))))]) := by
  have hd1 := drain_plain s hs pre rest f (by omega) (by omega)
  obtain ⟨r, rs, hr⟩ : ∃ r rs, rest.drop s.length = r :: rs := by
    cases h : rest.drop s.length with
    | nil =>
      have := congrArg List.length h
      simp at this
      omega
    | cons r rs => exact ⟨r, rs, rfl⟩
  have hrs : rest.drop (s.length + 1) = rs := by
    have h1 : rest.drop (s.length + 1) = (rest.drop s.length).drop 1 := by
      rw [List.drop_drop, Nat.add_comm]
    rw [h1, hr]
    rfl
  have hset : (pre ++ s ++ r :: rs).set (pre.length + s.length) 0 = pre ++ s ++ 0 :: rs := by
    have : (pre ++ s).length = pre.length + s.length := by simp
    rw [← this]
    simp
  have hff : step ⟨pre ++ s ++ r :: rs, pre.length + s.length, f⟩ 255 =
      .ok (⟨pre ++ s ++ 0 :: rs, pre.length + s.length + 1,
            toUInt32 (atoi (pre ++ s ++ 0 :: rs))⟩,
           [.retune (toUInt32 (atoi (pre ++ s ++ 0 :: rs)))]) := by
    have hp : (⟨pre ++ s ++ r :: rs, pre.length + s.length, f⟩ : CmdState).cmdbuf_pos < 32 := by
      show pre.length + s.length < 32
      omega
    simp only [step, store_ok _ _ hp, hset]
    simp [hpos]
  rw [hr] at hd1
  rw [hrs, drain_snoc _ _ _ _ _ _ _ hd1 hff]
  simp

/-- A byte other than `0x00` never moves the position back: when its step
succeeds, the position has advanced by one. -/
theorem step_nonzero_advances (st st1 : CmdState) (b : Nat) (ev : List Event)
    (hb : b ≠ 0) (h : step st b = .ok (st1, ev)) :
    st1.cmdbuf_pos = st.cmdbuf_pos + 1 := by
  by_cases hp : st.cmdbuf_pos < 32
  · have hst : ∀ v, store st v =
        .ok ⟨st.cmdbuf.set st.cmdbuf_pos v, st.cmdbuf_pos + 1, st.frequency⟩ :=
      fun v => store_ok st v hp
    unfold step at h
    rw [if_neg hb] at h
    split at h
    · simp only [hst, Except.ok.injEq, Prod.mk.injEq] at h
      obtain ⟨rfl, -⟩ := h
      rfl
    · simp only [hst, Except.ok.injEq, Prod.mk.injEq] at h
      obtain ⟨rfl, -⟩ := h
      rfl
  · have hst : ∀ v, store st v = .error (.outOfBounds st.cmdbuf_pos) :=
      fun v => store_fault st v (by omega)
    unfold step at h
    rw [if_neg hb] at h
    split at h
    · simp [hst] at h
    · simp [hst] at h

/-- Digits sent behind a leading `0x00` are committed from any position. -/
theorem drain_reset_digits_commit (st : CmdState) (s : List Nat)
    (hbuf : st.cmdbuf.length = 32) (hne : s ≠ [])
    (hd : ∀ c ∈ s, 48 ≤ c ∧ c ≤ 57) (hlen : s.length ≤ 31)
    (hv : decimalValue s < 2 ^ 31) :
    drain st (0 :: (s ++ [255])) =
      .ok (⟨s ++ 0 :: st.cmdbuf.drop (s.length + 1), s.length + 1, decimalValue s⟩,
           [.retune (decimalValue s)]) := by
  have h0 : step st 0 = .ok (⟨st.cmdbuf, 0, st.frequency⟩, []) := by simp [step]
  have h1 := drain_digits_commit ⟨st.cmdbuf, 0, st.frequency⟩ s hbuf rfl hne hd hlen hv
  simp only [drain, h0]
  rw [h1]
  simp

/-! ## Lemmas on the spectral transform -/

theorem to_char_of_floor (x : ℚ) (n : Nat) (h1 : (n : ℚ) ≤ x) (h2 : x < n + 1) :
    to_char x = n % 256 := by
  have h0 : (0 : ℚ) ≤ x := le_trans (Nat.cast_nonneg n) h1
  have hf : ⌊x⌋ = (n : Int) := by
    rw [Int.floor_eq_iff]
    constructor
    · exact_mod_cast h1
    · exact_mod_cast h2
  simp only [to_char, h0, if_true, hf]
  omega

theorem run_fft_length (kiss_fft : List kiss_fft_cpx → List kiss_fft_cpx) (log10 : ℚ → ℚ)
    (N : Nat) (buffer : List Nat) : (run_fft kiss_fft log10 N buffer).length = N := by
  simp [run_fft]

theorem run_fft_get (kiss_fft : List kiss_fft_cpx → List kiss_fft_cpx) (log10 : ℚ → ℚ)
    (N : Nat) (buffer : List Nat) (i : Nat) (hi : i < N) :
    (run_fft kiss_fft log10 N buffer)[i]? =
      some (to_char (log_pwr_fft log10
        (bin_power (shifted_bin N (kiss_fft (load_samples N buffer)) i)))) := by
  simp [run_fft, List.getElem?_range hi]

theorem getD_replicate_self {α : Type} (n i : Nat) (a : α) :
    (List.replicate n a).getD i a = a := by
  by_cases h : i < n
  · simp [List.getD_eq_getElem?_getD, List.getElem?_replicate, h]
  · simp [List.getD_eq_getElem?_getD, List.getElem?_replicate, h]

theorem load_samples_const (N v : Nat) :
    load_samples N (List.replicate (2 * N) v) =
      List.replicate N ⟨(v : ℚ) / 255, (v : ℚ) / 255⟩ := by
  rw [List.eq_replicate_iff]
  refine ⟨by simp [load_samples], ?_⟩
  intro b hb
  simp only [load_samples, List.mem_map, List.mem_range] at hb
  obtain ⟨i, hi, rfl⟩ := hb
  have h1 : (List.replicate (2 * N) v).getD (2 * i) 0 = v := by
    have : 2 * i < 2 * N := by omega
    simp [List.getD_eq_getElem?_getD, List.getElem?_replicate, this]
  have h2 : (List.replicate (2 * N) v).getD (2 * i + 1) 0 = v := by
    have : 2 * i + 1 < 2 * N := by omega
    simp [List.getD_eq_getElem?_getD, List.getElem?_replicate, this]
  rw [h1, h2]

/-! ## Control channel: commit -/

/-- C1: from any parser state, the bytes `0x00`, a non-empty string `s` of at
most 31 decimal digits whose value is below `2^31`, then `0xFF`, make the
drain loop issue exactly one retune call, with the decimal value of `s`, and
store that value as the frequency. -/
theorem drain_commit (st : CmdState) (s : List Nat)
    (hbuf : st.cmdbuf.length = 32) (hne : s ≠ [])
    (hd : ∀ c ∈ s, 48 ≤ c ∧ c ≤ 57) (hlen : s.length ≤ 31)
    (hv : decimalValue s < 2 ^ 31) :
    drain st (0 :: (s ++ [255])) =
      .ok (⟨s ++ 0 :: st.cmdbuf.drop (s.length + 1), s.length + 1, decimalValue s⟩,
           [.retune (decimalValue s)]) :=
  drain_reset_digits_commit st s hbuf hne hd hlen hv

/-- Witness for C1: the frame `[0x00,'4','0','0',0xFF]` on a parser that holds
stale bytes at position 7. -/
theorem drain_commit_witness :
    drain ⟨List.replicate 32 57, 7, 99400000⟩ (0 :: ([52, 48, 48] ++ [255])) =
      .ok (⟨[52, 48, 48] ++ 0 :: (List.replicate 32 57).drop ([52, 48, 48].length + 1),
            [52, 48, 48].length + 1, decimalValue [52, 48, 48]⟩,
           [.retune (decimalValue [52, 48, 48])]) :=
  drain_commit ⟨List.replicate 32 57, 7, 99400000⟩ [52, 48, 48]
    (by decide) (by decide) (by decide) (by decide) (by decide)

/-! ## Spectral transform: centering shift -/

/-- C2: for even `N ≥ 2` and `i < N`, output bin `i` of `run_fft` is computed
from transform index `(i + N/2) mod N`, which is `N/2 + i` for `i < N/2` and
`i - N/2` for `i ≥ N/2` and lies below `N`; both parts are divided by `N`. -/
theorem centering_shift (kiss_fft : List kiss_fft_cpx → List kiss_fft_cpx) (log10 : ℚ → ℚ)
    (N : Nat) (buffer : List Nat) (i : Nat)
    (heven : N % 2 = 0) (hN : 2 ≤ N) (hi : i < N) :
    (i + N / 2) % N < N ∧
      (i < N / 2 → (i + N / 2) % N = N / 2 + i) ∧
      (N / 2 ≤ i → (i + N / 2) % N = i - N / 2) ∧
      shifted_bin N (kiss_fft (load_samples N buffer)) i =
        ⟨((kiss_fft (load_samples N buffer)).getD ((i + N / 2) % N) 0).r / N,
         ((kiss_fft (load_samples N buffer)).getD ((i + N / 2) % N) 0).i / N⟩ ∧
      (run_fft kiss_fft log10 N buffer)[i]? =
        some (to_char (log_pwr_fft log10 (bin_power
          ⟨((kiss_fft (load_samples N buffer)).getD ((i + N / 2) % N) 0).r / N,
           ((kiss_fft (load_samples N buffer)).getD ((i + N / 2) % N) 0).i / N⟩))) := by
  have hlo : i < N / 2 → (i + N / 2) % N = N / 2 + i := by
    intro h
    rw [Nat.mod_eq_of_lt (by omega)]
    omega
  have hhi : N / 2 ≤ i → (i + N / 2) % N = i - N / 2 := by
    intro h
    have h1 : i + N / 2 = (i - N / 2) + N := by omega
    rw [h1, Nat.add_mod_right, Nat.mod_eq_of_lt (by omega)]
  have hbin : shifted_bin N (kiss_fft (load_samples N buffer)) i =
      ⟨((kiss_fft (load_samples N buffer)).getD ((i + N / 2) % N) 0).r / N,
       ((kiss_fft (load_samples N buffer)).getD ((i + N / 2) % N) 0).i / N⟩ := by
    by_cases h : i < N / 2
    · simp only [shifted_bin, h, if_true, hlo h]
    · simp only [shifted_bin, h, if_false, hhi (by omega)]
  refine ⟨Nat.mod_lt _ (by omega), hlo, hhi, hbin, ?_⟩
  rw [run_fft_get kiss_fft log10 N buffer i hi, hbin]

/-- Witness for C2: `N = 4`; output index 2 reads transform index 0, and
output index 0 reads transform index 2. -/
theorem centering_shift_witness :
    ((2 + 4 / 2) % 4 = 0 ∧ (0 + 4 / 2) % 4 = 2) ∧
      shifted_bin 4 (dft4 (load_samples 4 [1, 2, 3, 4, 5, 6, 7, 8])) 2 =
        ⟨((dft4 (load_samples 4 [1, 2, 3, 4, 5, 6, 7, 8])).getD ((2 + 4 / 2) % 4) 0).r / (4 : Nat),
         ((dft4 (load_samples 4 [1, 2, 3, 4, 5, 6, 7, 8])).getD ((2 + 4 / 2) % 4) 0).i / (4 : Nat)⟩ ∧
      shifted_bin 4 (dft4 (load_samples 4 [1, 2, 3, 4, 5, 6, 7, 8])) 0 =
        ⟨((dft4 (load_samples 4 [1, 2, 3, 4, 5, 6, 7, 8])).getD ((0 + 4 / 2) % 4) 0).r / (4 : Nat),
         ((dft4 (load_samples 4 [1, 2, 3, 4, 5, 6, 7, 8])).getD ((0 + 4 / 2) % 4) 0).i / (4 : Nat)⟩ :=
  ⟨by decide,
   (centering_shift dft4 log10_sample 4 [1, 2, 3, 4, 5, 6, 7, 8] 2
      (by decide) (by decide) (by decide)).2.2.2.1,
   (centering_shift dft4 log10_sample 4 [1, 2, 3, 4, 5, 6, 7, 8] 0
      (by decide) (by decide) (by decide)).2.2.2.1⟩

/-! ## Spectral transform: saturation -/

/-- C3, evaluated on a block of `0xFF` bytes: every sample is `1 + 1i`, the
zero-frequency bin, at output index `N/2`, has power 2; with `log10 2` between
0.300 and 0.302 the value before narrowing is above 255 (no upper clamp is
applied) and the byte written is 263 mod 256 = 7. -/
theorem saturated_bin_wraps (kiss_fft : List kiss_fft_cpx → List kiss_fft_cpx)
    (log10 : ℚ → ℚ) (N : Nat) (hN : 1 ≤ N)
    (hdc : (kiss_fft (List.replicate N ⟨1, 1⟩)).getD 0 0 = ⟨(N : ℚ), (N : ℚ)⟩)
    (hlo : 3 / 10 ≤ log10 (2 + EPSILON)) (hhi : log10 (2 + EPSILON) ≤ 302 / 1000) :
    bin_power (shifted_bin N (kiss_fft (load_samples N (List.replicate (2 * N) 255))) (N / 2)) = 2 ∧
      255 < log_pwr_fft log10 2 ∧
      (run_fft kiss_fft log10 N (List.replicate (2 * N) 255))[N / 2]? = some 7 := by
  have hNq : (N : ℚ) ≠ 0 := by
    have : 0 < N := hN
    exact_mod_cast this.ne'
  have hload : load_samples N (List.replicate (2 * N) 255) = List.replicate N ⟨1, 1⟩ := by
    rw [load_samples_const]
    norm_num
  have hbin : shifted_bin N (kiss_fft (load_samples N (List.replicate (2 * N) 255))) (N / 2) =
      ⟨1, 1⟩ := by
    simp only [shifted_bin, lt_irrefl, if_false, Nat.sub_self, hload, hdc]
    simp [hNq]
  have hpow : bin_power
      (shifted_bin N (kiss_fft (load_samples N (List.replicate (2 * N) 255))) (N / 2)) = 2 := by
    rw [hbin]
    norm_num [bin_power]
  have hnn : ¬ (10 * log10 (2 + EPSILON) + 90 < 0) := by linarith
  have hval : log_pwr_fft log10 2 = (10 * log10 (2 + EPSILON) + 90) / 90 * 255 := by
    simp only [log_pwr_fft, DYNAMIC_RANGE, hnn, if_false]
  refine ⟨hpow, ?_, ?_⟩
  · rw [hval]
    linarith
  · rw [run_fft_get kiss_fft log10 N _ (N / 2) (by omega), hpow, hval]
    have h := to_char_of_floor ((10 * log10 (2 + EPSILON) + 90) / 90 * 255) 263
      (by push_cast; linarith) (by push_cast; linarith)
    rw [h]

/-- Witness for C3: `N = 4` with the exact 4-point transform. -/
theorem saturated_bin_wraps_witness :
    bin_power (shifted_bin 4 (dft4 (load_samples 4 (List.replicate (2 * 4) 255))) (4 / 2)) = 2 ∧
      255 < log_pwr_fft log10_sample 2 ∧
      (run_fft dft4 log10_sample 4 (List.replicate (2 * 4) 255))[4 / 2]? = some 7 :=
  saturated_bin_wraps dft4 log10_sample 4 (by decide)
    (by norm_num [dft4]) (by norm_num [log10_sample, EPSILON])
    (by norm_num [log10_sample, EPSILON])

/-! ## Spectral transform: power floor -/

/-- C4: for every `N`, if the FFT kernel maps the zero block to zero bins and
`10·log10(1e-20) + 90` is negative, a block of `2N` zero bytes gives a frame
of exactly `N` bytes, all 0. -/
theorem zero_block_floor (kiss_fft : List kiss_fft_cpx → List kiss_fft_cpx)
    (log10 : ℚ → ℚ) (N : Nat)
    (hfft : ∀ k, k < N → (kiss_fft (List.replicate N 0)).getD k 0 = 0)
    (hlog : 10 * log10 (0 + EPSILON) + DYNAMIC_RANGE < 0) :
    run_fft kiss_fft log10 N (List.replicate (2 * N) 0) = List.replicate N 0 ∧
      (run_fft kiss_fft log10 N (List.replicate (2 * N) 0)).length = N := by
  have hload : load_samples N (List.replicate (2 * N) 0) = List.replicate N 0 := by
    have h0 : (⟨((0 : Nat) : ℚ) / 255, ((0 : Nat) : ℚ) / 255⟩ : kiss_fft_cpx) = 0 := by
      show (⟨_, _⟩ : kiss_fft_cpx) = ⟨0, 0⟩
      norm_num
    rw [load_samples_const, h0]
  refine ⟨?_, run_fft_length _ _ _ _⟩
  rw [List.eq_replicate_iff]
  refine ⟨run_fft_length _ _ _ _, ?_⟩
  intro b hb
  simp only [run_fft, List.mem_map, List.mem_range] at hb
  obtain ⟨i, hi, rfl⟩ := hb
  have hz : (0 : kiss_fft_cpx).r = 0 ∧ (0 : kiss_fft_cpx).i = 0 := ⟨rfl, rfl⟩
  have hbin : shifted_bin N (kiss_fft (load_samples N (List.replicate (2 * N) 0))) i = ⟨0, 0⟩ := by
    rw [hload]
    by_cases h : i < N / 2
    · simp only [shifted_bin, h, if_true, hfft (N / 2 + i) (by omega), hz.1, hz.2, zero_div]
    · simp only [shifted_bin, h, if_false, hfft (i - N / 2) (by omega), hz.1, hz.2, zero_div]
  rw [hbin]
  have hp : bin_power ⟨0, 0⟩ = 0 := by norm_num [bin_power]
  rw [hp]
  have hv : log_pwr_fft log10 0 = 0 := by
    simp only [log_pwr_fft, hlog, if_true]
    norm_num
  rw [hv]
  simp [to_char]

/-- Witness for C4: `N = 4` gives `[0,0,0,0]`. -/
theorem zero_block_floor_witness :
    run_fft dft4 log10_sample 4 (List.replicate (2 * 4) 0) = List.replicate 4 0 ∧
      (run_fft dft4 log10_sample 4 (List.replicate (2 * 4) 0)).length = 4 :=
  zero_block_floor dft4 log10_sample 4
    (by
      intro k hk
      have h : dft4 (List.replicate 4 0) = [0, 0, 0, 0] := by
        have hz : (0 : kiss_fft_cpx).r = 0 ∧ (0 : kiss_fft_cpx).i = 0 := ⟨rfl, rfl⟩
        simp only [dft4, getD_replicate_self, hz.1, hz.2]
        norm_num
        rfl
      rw [h]
      interval_cases k <;> rfl)
    (by norm_num [log10_sample, EPSILON, DYNAMIC_RANGE])

/-! ## Control channel: the buffer after a commit -/

/-- C5, as amended: a `0xFF` received at position `p` with `0 < p < 32` stores
a NUL at index `p`, moves the position to `p + 1` and retunes to `atoi` of the
buffer; the buffer is not emptied.  When `p + 1 + |s| < 32`, a digit string `s`
that follows without a `0x00` is stored at indices `p+1 ..` behind that NUL,
the next `0xFF` puts a second NUL behind it and commits the first value once
more.  A `0x00` sets the position to 0, and no other byte does: after any
byte other than `0x00` whose step succeeds the position is one higher. -/
theorem commit_keeps_buffer (st : CmdState) (s : List Nat)
    (hbuf : st.cmdbuf.length = 32) (hpos : 0 < st.cmdbuf_pos) (hlt : st.cmdbuf_pos < 32)
    (hd : ∀ c ∈ s, 48 ≤ c ∧ c ≤ 57) :
    step st 255 =
        .ok (⟨st.cmdbuf.set st.cmdbuf_pos 0, st.cmdbuf_pos + 1,
              toUInt32 (atoi (st.cmdbuf.set st.cmdbuf_pos 0))⟩,
             [.retune (toUInt32 (atoi (st.cmdbuf.set st.cmdbuf_pos 0)))]) ∧
      (st.cmdbuf_pos + 1 + s.length < 32 →
        drain ⟨st.cmdbuf.set st.cmdbuf_pos 0, st.cmdbuf_pos + 1,
               toUInt32 (atoi (st.cmdbuf.set st.cmdbuf_pos 0))⟩ (s ++ [255]) =
          .ok (⟨st.cmdbuf.take st.cmdbuf_pos ++ 0 ::
                  (s ++ 0 :: st.cmdbuf.drop (st.cmdbuf_pos + 1 + s.length + 1)),
                st.cmdbuf_pos + 1 + s.length + 1,
                toUInt32 (atoi (st.cmdbuf.set st.cmdbuf_pos 0))⟩,
               [.retune (toUInt32 (atoi (st.cmdbuf.set st.cmdbuf_pos 0)))])) ∧
      step st 0 = .ok (⟨st.cmdbuf, 0, st.frequency⟩, []) ∧
      (∀ (b : Nat) (st1 : CmdState) (ev : List Event),
        b ≠ 0 → step st b = .ok (st1, ev) → st1.cmdbuf_pos = st.cmdbuf_pos + 1) := by
  obtain ⟨buf, p, f⟩ := st
  simp only at hbuf hpos hlt ⊢
  refine ⟨?_, ?_, ?_, ?_⟩
  · have hp1 : (⟨buf, p, f⟩ : CmdState).cmdbuf_pos < 32 := hlt
    simp only [step, store_ok _ _ hp1]
    simp [hpos]
  · intro hroom
    -- split the buffer around the terminator written at index `p`
    have hsplit : buf.set p 0 = (buf.take p ++ [0]) ++ buf.drop (p + 1) := by
      rw [List.set_eq_take_append_cons_drop]
      simp [hbuf, hlt]
    have hprelen : (buf.take p ++ [0]).length = p + 1 := by
      simp only [List.length_append, List.length_take, List.length_singleton, hbuf]
      omega
    have hrestlen : (buf.drop (p + 1)).length = 31 - p := by
      simp only [List.length_drop, hbuf]
      omega
    have hplain : ∀ c ∈ s, c ≠ 0 ∧ c ≠ 255 := by
      intro c hc
      have := hd c hc
      omega
    have hmain := drain_plain_commit (buf.take p ++ [0]) (buf.drop (p + 1)) s
      (toUInt32 (atoi (buf.set p 0))) hplain (by omega) (by omega) (by omega)
    rw [hprelen, ← hsplit] at hmain
    have hbufeq : buf.take p ++ [0] ++ s ++ 0 :: (buf.drop (p + 1)).drop (s.length + 1) =
        buf.take p ++ 0 :: (s ++ 0 :: buf.drop (p + 1 + s.length + 1)) := by
      have : (buf.drop (p + 1)).drop (s.length + 1) = buf.drop (p + 1 + s.length + 1) := by
        rw [List.drop_drop]
        exact congrArg (fun k => List.drop k buf) (by omega)
      rw [this]
      simp
    have hat : atoi (buf.take p ++ 0 :: (s ++ 0 :: buf.drop (p + 1 + s.length + 1))) =
        atoi (buf.set p 0) := by
      rw [hsplit]
      simp only [List.append_assoc, List.singleton_append]
      exact atoi_stop _ _ _
    rw [hbufeq, hat] at hmain
    exact hmain
  · simp [step]
  · intro b st1 ev hb h
    exact step_nonzero_advances _ st1 b ev hb h

/-- Witness for C5 as amended: `"400"` committed at position 3, then `"500"`
and `0xFF` without a `0x00`: the buffer then holds `400`, NUL, `500`, NUL, the
position is 8 and the second retune is to 400 again. -/
theorem commit_keeps_buffer_witness :
    step ⟨[52, 48, 48] ++ List.replicate 29 0, 3, 99400000⟩ 255 =
        .ok (⟨[52, 48, 48, 0] ++ List.replicate 28 0, 4, 400⟩, [.retune 400]) ∧
      drain ⟨[52, 48, 48, 0] ++ List.replicate 28 0, 4, 400⟩ ([53, 48, 48] ++ [255]) =
        .ok (⟨[52, 48, 48, 0, 53, 48, 48, 0] ++ List.replicate 24 0, 8, 400⟩,
             [.retune 400]) ∧
      step ⟨[52, 48, 48] ++ List.replicate 29 0, 3, 99400000⟩ 0 =
        .ok (⟨[52, 48, 48] ++ List.replicate 29 0, 0, 99400000⟩, []) ∧
      (∀ (b : Nat) (st1 : CmdState) (ev : List Event),
        b ≠ 0 → step ⟨[52, 48, 48] ++ List.replicate 29 0, 3, 99400000⟩ b = .ok (st1, ev) →
          st1.cmdbuf_pos = 3 + 1) :=
  ⟨(commit_keeps_buffer ⟨[52, 48, 48] ++ List.replicate 29 0, 3, 99400000⟩ [53, 48, 48]
      (by decide) (by decide) (by decide) (by decide)).1,
   (congrArg (fun x => drain x ([53, 48, 48] ++ [255]))
      (by decide : (⟨[52, 48, 48, 0] ++ List.replicate 28 0, 4, 400⟩ : CmdState) =
        ⟨([52, 48, 48] ++ List.replicate 29 0).set 3 0, 3 + 1,
         toUInt32 (atoi (([52, 48, 48] ++ List.replicate 29 0).set 3 0))⟩)).trans
     (((commit_keeps_buffer ⟨[52, 48, 48] ++ List.replicate 29 0, 3, 99400000⟩ [53, 48, 48]
        (by decide) (by decide) (by decide) (by decide)).2.1 (by decide)).trans
      (by decide : (Except.ok
          (⟨([52, 48, 48] ++ List.replicate 29 0).take 3 ++ 0 ::
              ([53, 48, 48] ++ 0 ::
                ([52, 48, 48] ++ List.replicate 29 0).drop (3 + 1 + [53, 48, 48].length + 1)),
            3 + 1 + [53, 48, 48].length + 1,
            toUInt32 (atoi (([52, 48, 48] ++ List.replicate 29 0).set 3 0))⟩,
           [Event.retune (toUInt32 (atoi (([52, 48, 48] ++ List.replicate 29 0).set 3 0)))]) :
          Except Fault (CmdState × List Event)) =
        Except.ok (⟨[52, 48, 48, 0, 53, 48, 48, 0] ++ List.replicate 24 0, 8, 400⟩,
          [Event.retune 400]))),
   (commit_keeps_buffer ⟨[52, 48, 48] ++ List.replicate 29 0, 3, 99400000⟩ [53, 48, 48]
      (by decide) (by decide) (by decide) (by decide)).2.2.1,
   (commit_keeps_buffer ⟨[52, 48, 48] ++ List.replicate 29 0, 3, 99400000⟩ [53, 48, 48]
      (by decide) (by decide) (by decide) (by decide)).2.2.2⟩

/-- C5, counterexample: with `"400"` in the buffer at position 3, `0xFF`
leaves position 4, and `"500"` then `0xFF` retunes to 400 again, not to 500. -/
theorem commit_not_empty :
    step ⟨[52, 48, 48] ++ List.replicate 29 0, 3, 99400000⟩ 255 =
        .ok (⟨[52, 48, 48, 0] ++ List.replicate 28 0, 4, 400⟩, [.retune 400]) ∧
      drain ⟨[52, 48, 48, 0] ++ List.replicate 28 0, 4, 400⟩ [53, 48, 48, 255] =
        .ok (⟨[52, 48, 48, 0, 53, 48, 48, 0] ++ List.replicate 24 0, 8, 400⟩, [.retune 400]) := by
  decide

/-! ## Control channel: `0xFF` at position 0 -/

/-- C6, evaluated: a `0xFF` received at position 0 takes the store branch: it
is written to `cmdbuf[0]` and the position becomes 1; a second `0xFF` then
commits and retunes to 0 Hz. -/
theorem ff_on_empty_is_stored :
    step ⟨zeroBuf, 0, 99400000⟩ 255 =
        .ok (⟨255 :: List.replicate 31 0, 1, 99400000⟩, []) ∧
      drain ⟨zeroBuf, 0, 99400000⟩ [255, 255] =
        .ok (⟨255 :: List.replicate 31 0, 2, 0⟩, [.retune 0]) := by
  decide

/-! ## Control channel: buffer bound -/

/-- C7, evaluated: 33 bytes `'1'` from the initial state; the 33rd store has
index 32, one past the end of `cmdbuf`. -/
theorem drain_overruns_cmdbuf :
    drain ⟨zeroBuf, 0, 99400000⟩ (List.replicate 33 49) = .error (.outOfBounds 32) ∧
      drain ⟨zeroBuf, 0, 99400000⟩ (List.replicate 32 49) =
        .ok (⟨List.replicate 32 49, 32, 99400000⟩, []) := by
  decide

/-! ## Session manager: state at accept -/

/-- C8, as amended: every accept sets `connection_valid = true` and leaves the
command buffer, its position and the frequency as they were; the position is
0 at the first accept of the process.  For a non-empty string of at most 31
digits with value below `2^31`, the first command of the session commits
exactly those digits when the inherited position is 0 or when the command
begins with `0x00`; sent without a `0x00` at an inherited position `p` with
`p + |digits| < 32`, the digits are stored behind the `p` inherited bytes and
the commit parses the inherited bytes followed by the digits. -/
theorem accept_inherits_cmdbuf (kiss_fft : List kiss_fft_cpx → List kiss_fft_cpx)
    (log10 : ℚ → ℚ) (s : Server) (env : Env) (digits : List Nat)
    (hpc : s.pc = .accept) (hbuf : s.cmd.cmdbuf.length = 32) (hne : digits ≠ [])
    (hd : ∀ c ∈ digits, 48 ≤ c ∧ c ≤ 57) (hlen : digits.length ≤ 31)
    (hv : decimalValue digits < 2 ^ 31) :
    main_step kiss_fft log10 s env = .ok (⟨.loop, s.cmd, true, true⟩, []) ∧
      main_step kiss_fft log10 (initial s.cmd.cmdbuf) env =
        .ok (⟨.loop, ⟨s.cmd.cmdbuf, 0, 99400000⟩, true, true⟩, []) ∧
      (s.cmd.cmdbuf_pos = 0 →
        drain s.cmd (digits ++ [255]) =
          .ok (⟨digits ++ 0 :: s.cmd.cmdbuf.drop (digits.length + 1), digits.length + 1,
                decimalValue digits⟩, [.retune (decimalValue digits)])) ∧
      drain s.cmd (0 :: (digits ++ [255])) =
        .ok (⟨digits ++ 0 :: s.cmd.cmdbuf.drop (digits.length + 1), digits.length + 1,
              decimalValue digits⟩, [.retune (decimalValue digits)]) ∧
      (s.cmd.cmdbuf_pos + digits.length < 32 →
        drain s.cmd (digits ++ [255]) =
          .ok (⟨s.cmd.cmdbuf.take s.cmd.cmdbuf_pos ++ digits ++
                  0 :: s.cmd.cmdbuf.drop (s.cmd.cmdbuf_pos + digits.length + 1),
                s.cmd.cmdbuf_pos + digits.length + 1,
                toUInt32 (atoi (s.cmd.cmdbuf.take s.cmd.cmdbuf_pos ++ digits ++
                  0 :: s.cmd.cmdbuf.drop (s.cmd.cmdbuf_pos + digits.length + 1)))⟩,
               [.retune (toUInt32 (atoi (s.cmd.cmdbuf.take s.cmd.cmdbuf_pos ++ digits ++
                  0 :: s.cmd.cmdbuf.drop (s.cmd.cmdbuf_pos + digits.length + 1))))])) := by
  refine ⟨?_, ?_, ?_, ?_, ?_⟩
  · simp [main_step, hpc, accept_connection]
  · simp [main_step, initial, accept_connection]
  · intro hzero
    exact drain_digits_commit s.cmd digits hbuf hzero hne hd hlen hv
  · exact drain_reset_digits_commit s.cmd digits hbuf hne hd hlen hv
  · intro hroom
    obtain ⟨pc, ⟨buf, p, f⟩, v, o⟩ := s
    simp only at hbuf hroom ⊢
    have hplain : ∀ c ∈ digits, c ≠ 0 ∧ c ≠ 255 := by
      intro c hc
      have := hd c hc
      omega
    have hdpos : 0 < digits.length := List.length_pos.mpr hne
    have hprelen : (buf.take p).length = p := by
      simp only [List.length_take, hbuf]
      omega
    have hrestlen : (buf.drop p).length = 32 - p := by
      simp only [List.length_drop, hbuf]
    have hmain := drain_plain_commit (buf.take p) (buf.drop p) digits f hplain
      (by omega) (by omega) (by omega)
    have hdrop : (buf.drop p).drop (digits.length + 1) = buf.drop (p + digits.length + 1) := by
      rw [List.drop_drop]
      exact congrArg (fun k => List.drop k buf) (by omega)
    rw [List.take_append_drop, hprelen, hdrop] at hmain
    exact hmain

/-- Witness for C8 as amended: an accept that inherits `"123"` at position 3
keeps them; `0x00`, `"400"`, `0xFF` then retunes to 400, while `"400"`, `0xFF`
alone retunes to 123400; at the first accept of the process `"400"`, `0xFF`
retunes to 400. -/
theorem accept_inherits_cmdbuf_witness :
    main_step dft4 log10_sample
        ⟨.accept, ⟨[49, 50, 51] ++ List.replicate 29 0, 3, 99400000⟩, false, false⟩ quiet =
        .ok (⟨.loop, ⟨[49, 50, 51] ++ List.replicate 29 0, 3, 99400000⟩, true, true⟩, []) ∧
      main_step dft4 log10_sample (initial zeroBuf) quiet =
        .ok (⟨.loop, ⟨zeroBuf, 0, 99400000⟩, true, true⟩, []) ∧
      drain ⟨zeroBuf, 0, 99400000⟩ ([52, 48, 48] ++ [255]) =
        .ok (⟨[52, 48, 48, 0] ++ List.replicate 28 0, 4, 400⟩, [.retune 400]) ∧
      drain ⟨[49, 50, 51] ++ List.replicate 29 0, 3, 99400000⟩ (0 :: ([52, 48, 48] ++ [255])) =
        .ok (⟨[52, 48, 48, 0] ++ List.replicate 28 0, 4, 400⟩, [.retune 400]) ∧
      drain ⟨[49, 50, 51] ++ List.replicate 29 0, 3, 99400000⟩ ([52, 48, 48] ++ [255]) =
        .ok (⟨[49, 50, 51, 52, 48, 48, 0] ++ List.replicate 25 0, 7, 123400⟩,
             [.retune 123400]) :=
  ⟨(accept_inherits_cmdbuf dft4 log10_sample
      ⟨.accept, ⟨[49, 50, 51] ++ List.replicate 29 0, 3, 99400000⟩, false, false⟩ quiet
      [52, 48, 48] rfl (by decide) (by decide) (by decide) (by decide) (by decide)).1,
   (accept_inherits_cmdbuf dft4 log10_sample (initial zeroBuf) quiet
      [52, 48, 48] rfl (by decide) (by decide) (by decide) (by decide) (by decide)).2.1,
   ((accept_inherits_cmdbuf dft4 log10_sample (initial zeroBuf) quiet
      [52, 48, 48] rfl (by decide) (by decide) (by decide) (by decide) (by decide)).2.2.1
        rfl).trans (by decide),
   ((accept_inherits_cmdbuf dft4 log10_sample
      ⟨.accept, ⟨[49, 50, 51] ++ List.replicate 29 0, 3, 99400000⟩, false, false⟩ quiet
      [52, 48, 48] rfl (by decide) (by decide) (by decide) (by decide) (by decide)).2.2.2.1).trans
        (by decide),
   ((accept_inherits_cmdbuf dft4 log10_sample
      ⟨.accept, ⟨[49, 50, 51] ++ List.replicate 29 0, 3, 99400000⟩, false, false⟩ quiet
      [52, 48, 48] rfl (by decide) (by decide) (by decide) (by decide) (by decide)).2.2.2.2
        (by decide)).trans (by decide)⟩

/-- C8, counterexample: a first session receives `"123"` and loses its peer;
the second session starts with `connection_valid = true` and position 3, and
its first command `"400"`, `0xFF` retunes to 123400. -/
theorem second_session_inherits_position :
    (main_run dft4 log10_sample (initial zeroBuf)
        [quiet, { quiet with inbound := [49, 50, 51], wr := .failed_sigpipe }, quiet, quiet]).map
        (fun r => (r.1.pc, r.1.connection_valid, r.1.cmd.cmdbuf_pos)) =
      .ok (.loop, true, 3) ∧
    (main_run dft4 log10_sample (initial zeroBuf)
        [quiet, { quiet with inbound := [49, 50, 51], wr := .failed_sigpipe }, quiet, quiet,
         { quiet with inbound := [52, 48, 48, 255] }]).map
        (fun r => (r.1.cmd.frequency, retunes r.2)) =
      .ok (123400, [123400]) := by
  decide

/-! ## Acquisition: failure detection -/

/-- C9, as amended: for `n_read` in the range of `int`, `read_rtlsdr` reports
an error exactly when `r < 0` or `0 ≤ n_read < buff_len`; the byte count is
compared as an unsigned number, so a negative one is not a short read. -/
theorem read_rtlsdr_error_iff (r n_read : Int)
    (hlo : -(2 ^ 31) ≤ n_read) (hhi : n_read < 2 ^ 31) :
    read_rtlsdr r n_read = true ↔ (r < 0 ∨ (0 ≤ n_read ∧ n_read < buff_len)) := by
  have key : ((n_read % 2 ^ 32).toNat < 2048) ↔ (0 ≤ n_read ∧ n_read < ((2048 : Nat) : Int)) := by
    omega
  simp only [read_rtlsdr, toUInt32, buff_len]
  by_cases hr : r < 0
  · simp [hr]
  · by_cases hn : (n_read % 2 ^ 32).toNat < 2048
    · simp only [hr, hn, if_true, false_or, true_iff]
      exact key.mp hn
    · simp only [hr, hn, if_false, false_or]
      constructor
      · intro h; cases h
      · intro h; exact absurd (key.mpr h) hn

/-- Witness for C9 as amended: a successful read of 2047 bytes is an error. -/
theorem read_rtlsdr_error_iff_witness :
    read_rtlsdr 0 2047 = true ↔ ((0 : Int) < 0 ∨ ((0 : Int) ≤ 2047 ∧ (2047 : Int) < buff_len)) :=
  read_rtlsdr_error_iff 0 2047 (by decide) (by decide)

/-- C9, counterexample: a read that returns 0 and reports `n_read = -1`
delivers fewer than the 2048 bytes asked for, and no error is reported. -/
theorem read_rtlsdr_negative_count :
    read_rtlsdr 0 (-1) = false ∧ (-1 : Int) < buff_len := by
  decide

/-! ## Session loop: write failure -/

/-- C10, as amended: when the frame write raises `SIGPIPE`, the handler marks
the session invalid and closes the connection; no frame is sent in that pass;
the next test of `connection_valid` leaves the inner loop, closes the
connection and returns to `accept`, which starts a new session; the process
has not exited. -/
theorem sigpipe_ends_session (kiss_fft : List kiss_fft_cpx → List kiss_fft_cpx)
    (log10 : ℚ → ℚ) (s : Server) (env env2 env3 : Env) (cmd1 : CmdState) (ev1 : List Event)
    (hpc : s.pc = .loop) (hvalid : s.connection_valid = true)
    (hdrain : drain s.cmd env.inbound = .ok (cmd1, ev1))
    (hread : read_rtlsdr env.r env.n_read = false)
    (hwr : env.wr = .failed_sigpipe) :
    main_step kiss_fft log10 s env = .ok (⟨.loop, cmd1, false, false⟩, ev1 ++ [.closeConn]) ∧
      (∀ frame, Event.send frame ∉ ev1 ++ [.closeConn]) ∧
      main_step kiss_fft log10 ⟨.loop, cmd1, false, false⟩ env2 =
        .ok (⟨.accept, cmd1, false, false⟩, [.closeConn]) ∧
      main_step kiss_fft log10 ⟨.accept, cmd1, false, false⟩ env3 =
        .ok (⟨.loop, cmd1, true, true⟩, []) := by
  refine ⟨?_, ?_, ?_, ?_⟩
  · simp [main_step, hpc, hvalid, loop_body, hdrain, hread, hwr, sighandler_pipe]
  · intro frame hmem
    rcases List.mem_append.mp hmem with h1 | h2
    · obtain ⟨f, hf⟩ := drain_events _ _ _ _ hdrain _ h1
      cases hf
    · simp at h2
  · simp [main_step]
  · simp [main_step, accept_connection]

/-- Witness for C10 as amended: an active session whose frame write raises
`SIGPIPE`. -/
theorem sigpipe_ends_session_witness :
    main_step dft4 log10_sample ⟨.loop, ⟨zeroBuf, 0, 99400000⟩, true, true⟩
        { quiet with wr := .failed_sigpipe } =
        .ok (⟨.loop, ⟨zeroBuf, 0, 99400000⟩, false, false⟩, [] ++ [.closeConn]) ∧
      (∀ frame, Event.send frame ∉ [] ++ [Event.closeConn]) ∧
      main_step dft4 log10_sample ⟨.loop, ⟨zeroBuf, 0, 99400000⟩, false, false⟩ quiet =
        .ok (⟨.accept, ⟨zeroBuf, 0, 99400000⟩, false, false⟩, [.closeConn]) ∧
      main_step dft4 log10_sample ⟨.accept, ⟨zeroBuf, 0, 99400000⟩, false, false⟩ quiet =
        .ok (⟨.loop, ⟨zeroBuf, 0, 99400000⟩, true, true⟩, []) :=
  sigpipe_ends_session dft4 log10_sample ⟨.loop, ⟨zeroBuf, 0, 99400000⟩, true, true⟩
    { quiet with wr := .failed_sigpipe } quiet quiet ⟨zeroBuf, 0, 99400000⟩ []
    rfl rfl (by decide) (by decide) rfl

/-- C10, counterexample: a frame write that fails without a signal; its
return value is not read, the session stays valid with the connection open,
and the next pass of the loop sends a further frame. -/
theorem write_failure_without_signal :
    main_step dft4 log10_sample ⟨.loop, ⟨zeroBuf, 0, 99400000⟩, true, true⟩
        { quiet with wr := .failed_nosignal } =
        .ok (⟨.loop, ⟨zeroBuf, 0, 99400000⟩, true, true⟩, []) ∧
      main_step dft4 log10_sample ⟨.loop, ⟨zeroBuf, 0, 99400000⟩, true, true⟩ quiet =
        .ok (⟨.loop, ⟨zeroBuf, 0, 99400000⟩, true, true⟩,
             [.send (run_fft dft4 log10_sample fft_size quiet.block)]) :=
  ⟨rfl, rfl⟩

end RtlWebfft
